import Mathlib

/-!
Verification of the ember-build-scenario-tester repository.

The repository is a benchmarking script in two revisions:
an older `index.js` and a newer revision (here called part 000) that adds a
JOBS sweep, a SETTINGS record, delta reporting and asset-family grouping.
This file gives a shallow embedding of the pure data manipulated by the
script - the dependency manifest, the scenario list, the build-config
patching, the result formatting helpers and the per-scenario control flow -
and proves or refutes the frozen claims about it.

Conventions of the embedding:
  - JavaScript objects used as string maps become association lists
    in insertion order; JSON-absent fields become `Option`.
  - JavaScript numbers in the delta computation become exact rationals.
  - JavaScript strings become Lean `String`, manipulated through their
    underlying character lists.
  - Functions that can throw return `Option` or `Except String`.
-/

/-- JSON values as they occur in the scenario configs of the script:
objects, strings, booleans and (integer) numbers. -/
inductive Json where
  | obj (fields : List (String × Json))
  | str (s : String)
  | bool (b : Bool)
  | num (n : Int)

/-- Escape of one character inside a JSON string literal, as done by
JSON.stringify for quotes and backslashes (the only special characters
reachable from the script's configs). -/
def jsonEscapeChar (c : Char) : List Char :=
  if c = '"' then ['\\', '"'] else if c = '\\' then ['\\', '\\'] else [c]

/-- Escape of a whole string for embedding in JSON output. -/
def jsonEscape (s : String) : String :=
  ⟨s.data.flatMap jsonEscapeChar⟩

mutual

/-- JSON.stringify as used by applyConfig/cleanConfig: object literals in
brace syntax, quoted keys, comma separated fields, no whitespace. -/
def Json.serialize : Json → String
  | .obj fields => "\x7b" ++ Json.serializeFields fields ++ "\x7d"
  | .str s => "\"" ++ jsonEscape s ++ "\""
  | .bool b => if b then "true" else "false"
  | .num n => toString n

/-- Comma separated field list of a serialized JSON object. -/
def Json.serializeFields : List (String × Json) → String
  | [] => ""
  | [(k, v)] => "\"" ++ jsonEscape k ++ "\":" ++ Json.serialize v
  | (k, v) :: f :: fs =>
      "\"" ++ jsonEscape k ++ "\":" ++ Json.serialize v ++ ","
        ++ Json.serializeFields (f :: fs)

end

/-- A dependency map of package.json: package name to version range,
in insertion order. -/
abbrev DepMap := List (String × String)

/-- The package.json manifest as read by readPackageJson: the two
dependency maps (absent when the file has no such field) and the remaining
top level fields, kept opaque as key/raw-text pairs. -/
structure Manifest where
  dependencies : Option DepMap
  devDependencies : Option DepMap
  rest : List (String × String)
deriving DecidableEq

/-- The filterDeps closure inside removeDependencies: rebuilds a dependency
map keeping insertion order and dropping every name in dependencyList. -/
def filterDeps (dependencyList : List String) (specifiedDeps : DepMap) : DepMap :=
  specifiedDeps.filter (fun p => !(dependencyList.contains p.1))

/-- removeDependencies: filters both dependency maps when present
(JavaScript truthiness of the field) and writes the manifest back. -/
def removeDependencies (dependencyList : List String) (json : Manifest) : Manifest :=
  { json with
    dependencies := json.dependencies.map (filterDeps dependencyList),
    devDependencies := json.devDependencies.map (filterDeps dependencyList) }

/-- JavaScript property assignment obj[k] = v on an object modelled as an
association list: overwrite in place when the key exists, append otherwise. -/
def setKey (deps : DepMap) (name version : String) : DepMap :=
  if deps.any (fun p => p.1 == name) then
    deps.map (fun p => if p.1 == name then (name, version) else p)
  else
    deps ++ [(name, version)]

/-- addDependency: json.devDependencies[depName] = "*" followed by a write
back.  When the manifest has no devDependencies object the property access
throws a TypeError, modelled as none. -/
def addDependency (depName : String) (json : Manifest) : Option Manifest :=
  match json.devDependencies with
  | none => none
  | some devs => some { json with devDependencies := some (setKey devs depName "*") }

/-- hasDependency: builds the spread merge of dependencies and
devDependencies (devDependencies shadowing dependencies) and returns the
JavaScript truthiness of the looked-up version string; the empty string is
falsy. -/
def hasDependency (json : Manifest) (depName : String) : Bool :=
  match (json.devDependencies.getD []).lookup depName with
  | some v => v != ""
  | none =>
    match (json.dependencies.getD []).lookup depName with
    | some v => v != ""
    | none => false

/-- Minifier package name constant of the script. -/
def TERSER : String := "ember-cli-terser"

/-- Minifier package name constant of the script. -/
def ESBUILD : String := "ember-cli-esbuild-minifier"

/-- Minifier package name constant of the script. -/
def SWC : String := "ember-cli-swc-minifier"

/-- One scenario of the sweep: display name, minifier package and the
config overrides applied to ember-cli-build.js. -/
structure Scenario where
  name : String
  minifier : String
  appConfig : List (String × Json)

/-- The SCENARIOS table of the newer revision (part 000). -/
def SCENARIOS : List Scenario :=
  [ { name := "Default Terser",
      minifier := TERSER,
      appConfig := [(TERSER, Json.obj [])] },
    { name := "Terser w/ sequences/semicolons",
      minifier := TERSER,
      appConfig :=
        [(TERSER,
          Json.obj
            [("terser",
              Json.obj
                [("compress", Json.obj [("sequences", Json.bool false)]),
                 ("output", Json.obj [("semicolons", Json.bool false)])])])] },
    { name := "Default ESBuild",
      minifier := ESBUILD,
      appConfig := [] },
    { name := "Default SWC",
      minifier := SWC,
      appConfig := [] } ]

/-- The dependency list removed by removeMinifiers in the newer revision:
one hardcoded package plus every scenario's minifier. -/
def minifierCandidates : List String :=
  "@nullvoxpopuli/ember-cli-esbuild" :: SCENARIOS.map (fun sc => sc.minifier)

/-- removeMinifiers of the newer revision. -/
def removeMinifiers (json : Manifest) : Manifest :=
  removeDependencies minifierCandidates json

/-- Number of occurrences of known minifier candidate names among the keys
of both dependency maps of a manifest. -/
def countCandidates (json : Manifest) : Nat :=
  (((json.dependencies.getD []).map Prod.fst)
      ++ ((json.devDependencies.getD []).map Prod.fst)).countP
    (fun k => minifierCandidates.contains k)

/-! Helper lemmas about the dependency map operations. -/

theorem filterDeps_idem (names : List String) (d : DepMap) :
    filterDeps names (filterDeps names d) = filterDeps names d := by
  unfold filterDeps
  rw [List.filter_filter]
  simp

theorem mem_filterDeps (names : List String) (d : DepMap) (x : String × String) :
    x ∈ filterDeps names d ↔ x ∈ d ∧ x.1 ∉ names := by
  simp [filterDeps, List.mem_filter]

theorem fst_mem_filterDeps_not_contains (names : List String) (d : DepMap)
    (a : String) (h : a ∈ (filterDeps names d).map Prod.fst) :
    names.contains a = false := by
  obtain ⟨p, hp, rfl⟩ := List.mem_map.mp h
  have := (mem_filterDeps names d p).mp hp
  simp [this.2]

theorem filterDeps_of_disjoint (names : List String) (d : DepMap)
    (h : ∀ n ∈ names, n ∉ d.map Prod.fst) : filterDeps names d = d := by
  unfold filterDeps
  rw [List.filter_eq_self]
  intro p hp
  have hnp : p.1 ∉ names := fun hmem => h p.1 hmem (List.mem_map.mpr ⟨p, hp, rfl⟩)
  simp [hnp]

theorem setKey_eq_append (devs : DepMap) (name version : String)
    (hany : ¬ devs.any (fun p => p.1 == name) = true) :
    setKey devs name version = devs ++ [(name, version)] := by
  unfold setKey
  simp only [if_neg hany]

theorem setKey_eq_map (devs : DepMap) (name version : String)
    (hany : devs.any (fun p => p.1 == name) = true) :
    setKey devs name version
      = devs.map (fun p => if p.1 == name then (name, version) else p) := by
  unfold setKey
  simp only [if_pos hany]

theorem setKey_mem_self (devs : DepMap) (name version : String) :
    (name, version) ∈ setKey devs name version := by
  by_cases hany : devs.any (fun p => p.1 == name) = true
  · rw [setKey_eq_map devs name version hany]
    obtain ⟨p, hp, hpe⟩ := List.any_eq_true.mp hany
    refine List.mem_map.mpr ⟨p, hp, ?_⟩
    rw [if_pos hpe]
  · rw [setKey_eq_append devs name version hany]
    simp

theorem setKey_value_unique (devs : DepMap) (name version v : String)
    (h : (name, v) ∈ setKey devs name version) : v = version := by
  by_cases hany : devs.any (fun p => p.1 == name) = true
  · rw [setKey_eq_map devs name version hany] at h
    obtain ⟨p, hp2, hpe⟩ := List.mem_map.mp h
    by_cases hp1 : (p.1 == name) = true
    · rw [if_pos hp1] at hpe
      exact ((Prod.mk.injEq _ _ _ _).mp hpe).2.symm
    · rw [if_neg hp1] at hpe
      subst hpe
      simp at hp1
  · rw [setKey_eq_append devs name version hany, List.mem_append] at h
    rcases h with h | h
    · exact absurd (List.any_eq_true.mpr ⟨(name, v), h, by simp⟩) hany
    · simp at h
      exact h

theorem setKey_mem_frame (devs : DepMap) (name version k v : String)
    (hk : k ≠ name) : ((k, v) ∈ setKey devs name version ↔ (k, v) ∈ devs) := by
  by_cases hany : devs.any (fun p => p.1 == name) = true
  · rw [setKey_eq_map devs name version hany]
    constructor
    · intro h
      obtain ⟨p, hp2, hpe⟩ := List.mem_map.mp h
      by_cases hp1 : (p.1 == name) = true
      · rw [if_pos hp1] at hpe
        exact absurd ((Prod.mk.injEq _ _ _ _).mp hpe).1.symm hk
      · rw [if_neg hp1] at hpe
        exact hpe ▸ hp2
    · intro h
      refine List.mem_map.mpr ⟨(k, v), h, ?_⟩
      have hne : ¬ ((k, v).1 == name) = true := by simp [hk]
      rw [if_neg hne]
  · rw [setKey_eq_append devs name version hany, List.mem_append]
    constructor
    · rintro (h | h)
      · exact h
      · simp at h
        exact absurd h.1 hk
    · exact fun h => Or.inl h

/-- C7 counterexample: a manifest whose devDependencies contains the key
"foo" with the (falsy) empty-string version.  The key appears in a
dependency map, yet hasDependency returns false, refuting the claimed
biconditional. -/
theorem claim7_hasDependency_counterexample :
    hasDependency
        { dependencies := some [], devDependencies := some [("foo", "")], rest := [] }
        "foo" = false
      ∧ "foo" ∈ ((Manifest.mk (some []) (some [("foo", "")]) []).devDependencies.getD []).map
          Prod.fst := by
  constructor
  · rfl
  · simp

/-- C7 amended: hasDependency returns true iff the name maps to a
non-empty version string in devDependencies, or is absent from
devDependencies and maps to a non-empty version string in dependencies
(the spread merge lets devDependencies shadow dependencies, and
JavaScript truthiness makes an empty-string version count as absent). -/
theorem claim7_hasDependency_amended (json : Manifest) (depName : String) :
    hasDependency json depName = true ↔
      ((∃ v, (json.devDependencies.getD []).lookup depName = some v ∧ v ≠ "")
        ∨ ((json.devDependencies.getD []).lookup depName = none
            ∧ ∃ v, (json.dependencies.getD []).lookup depName = some v ∧ v ≠ "")) := by
  unfold hasDependency
  cases hdev : (json.devDependencies.getD []).lookup depName with
  | some v => simp [hdev]
  | none =>
    cases hdep : (json.dependencies.getD []).lookup depName with
    | some v => simp [hdep]
    | none => simp [hdep]

/-- C8: removeDependencies is idempotent, keys outside the removed name
set keep their version entries in both maps, names absent from the
manifest are ignored (removal by a disjoint name list is the identity),
and the remaining manifest fields are untouched. -/
theorem claim8_removeDependencies_idempotent (names : List String) (json : Manifest) :
    removeDependencies names (removeDependencies names json) = removeDependencies names json
    ∧ (∀ k v, k ∉ names →
        (((k, v) ∈ (removeDependencies names json).dependencies.getD []
            ↔ (k, v) ∈ json.dependencies.getD [])
          ∧ ((k, v) ∈ (removeDependencies names json).devDependencies.getD []
            ↔ (k, v) ∈ json.devDependencies.getD [])))
    ∧ (removeDependencies names json).rest = json.rest
    ∧ ((∀ n ∈ names,
          n ∉ (json.dependencies.getD []).map Prod.fst
            ∧ n ∉ (json.devDependencies.getD []).map Prod.fst) →
        removeDependencies names json = json) := by
  have hmapidem : ∀ o : Option DepMap,
      (o.map (filterDeps names)).map (filterDeps names) = o.map (filterDeps names) := by
    intro o
    cases o <;> simp [filterDeps_idem]
  refine ⟨?_, ?_, ?_, ?_⟩
  · simp [removeDependencies, hmapidem]
  · intro k v hk
    constructor
    · cases hdep : json.dependencies with
      | none => simp [removeDependencies, hdep]
      | some d => simp [removeDependencies, hdep, mem_filterDeps, hk]
    · cases hdev : json.devDependencies with
      | none => simp [removeDependencies, hdev]
      | some d => simp [removeDependencies, hdev, mem_filterDeps, hk]
  · rfl
  · intro h
    have hid : ∀ o : Option DepMap,
        (∀ n ∈ names, n ∉ (o.getD []).map Prod.fst) → o.map (filterDeps names) = o := by
      intro o ho
      cases o with
      | none => rfl
      | some d => simp [filterDeps_of_disjoint names d (by simpa using ho)]
    cases json with
    | mk dep dev rest =>
      simp only [removeDependencies]
      congr 1
      · exact hid dep (fun n hn => ((h n hn).1 : _))
      · exact hid dev (fun n hn => ((h n hn).2 : _))

/-- C8 witness: instantiation of the removeDependencies theorem on a
concrete manifest, discharging the disjointness hypothesis. -/
theorem claim8_removeDependencies_witness :
    removeDependencies ["gone"]
        (removeDependencies ["gone"]
          { dependencies := some [("keep", "1.0.0")], devDependencies := none, rest := [] })
      = removeDependencies ["gone"]
          { dependencies := some [("keep", "1.0.0")], devDependencies := none, rest := [] }
    ∧ removeDependencies ["absent"]
        { dependencies := some [("keep", "1.0.0")], devDependencies := none, rest := [] }
      = { dependencies := some [("keep", "1.0.0")], devDependencies := none, rest := [] } := by
  constructor
  · exact (claim8_removeDependencies_idempotent ["gone"]
      { dependencies := some [("keep", "1.0.0")], devDependencies := none, rest := [] }).1
  · exact (claim8_removeDependencies_idempotent ["absent"]
      { dependencies := some [("keep", "1.0.0")], devDependencies := none, rest := [] }).2.2.2
      (by decide)

/-- C10: addDependency fails (the devDependencies property access throws)
exactly when the manifest lacks a devDependencies map; otherwise it maps
the dependency name to "*" in devDependencies, overwriting any previous
entry, and leaves the dependencies map and all other manifest fields
unchanged. -/
theorem claim10_addDependency_spec (depName : String) (json : Manifest) :
    (json.devDependencies = none → addDependency depName json = none)
    ∧ (∀ devs, json.devDependencies = some devs →
        ∃ m2, addDependency depName json = some m2
          ∧ m2.dependencies = json.dependencies
          ∧ m2.rest = json.rest
          ∧ m2.devDependencies = some (setKey devs depName "*")
          ∧ (depName, "*") ∈ setKey devs depName "*"
          ∧ (∀ v, (depName, v) ∈ setKey devs depName "*" → v = "*")
          ∧ (∀ k v, k ≠ depName →
              ((k, v) ∈ setKey devs depName "*" ↔ (k, v) ∈ devs))) := by
  constructor
  · intro h
    simp [addDependency, h]
  · intro devs hdev
    refine ⟨{ json with devDependencies := some (setKey devs depName "*") }, ?_, rfl, rfl, rfl,
      setKey_mem_self devs depName "*",
      fun v hv => setKey_value_unique devs depName "*" v hv,
      fun k v hk => setKey_mem_frame devs depName "*" k v hk⟩
    simp [addDependency, hdev]

/-- C10 witness: addDependency on a concrete manifest with a
devDependencies map succeeds and records the wildcard version. -/
theorem claim10_addDependency_witness :
    addDependency "ember-cli-terser"
        { dependencies := some [("a", "1")], devDependencies := some [("b", "2")],
          rest := [("name", "app")] }
      ≠ none := by
  obtain ⟨m2, hm, -⟩ := (claim10_addDependency_spec "ember-cli-terser"
    { dependencies := some [("a", "1")], devDependencies := some [("b", "2")],
      rest := [("name", "app")] }).2 [("b", "2")] rfl
  simp [hm]

theorem countP_fst_filterDeps_zero (names : List String) (d : DepMap) :
    ((filterDeps names d).map Prod.fst).countP (fun k => names.contains k) = 0 := by
  rw [List.countP_eq_zero]
  intro a ha
  simpa using fst_mem_filterDeps_not_contains names d a ha

/-- C6: after the preparing step of any scenario of the sweep - removing
every known minifier candidate and then adding the scenario's minifier to
devDependencies - the manifest contains at most one candidate name across
its two dependency maps. -/
theorem claim6_at_most_one_minifier (json : Manifest) (sc : Scenario)
    (hsc : sc ∈ SCENARIOS) (m2 : Manifest)
    (h : addDependency sc.minifier (removeMinifiers json) = some m2) :
    countCandidates m2 ≤ 1 := by
  have hmf : sc.minifier ∈ minifierCandidates :=
    List.mem_cons_of_mem _ (List.mem_map.mpr ⟨sc, hsc, rfl⟩)
  cases hdev : json.devDependencies with
  | none =>
    rw [removeMinifiers] at h
    simp [addDependency, removeDependencies, hdev] at h
  | some d0 =>
    have hrm : (removeMinifiers json).devDependencies
        = some (filterDeps minifierCandidates d0) := by
      simp [removeMinifiers, removeDependencies, hdev]
    unfold addDependency at h
    rw [hrm] at h
    simp only [Option.some.injEq] at h
    subst h
    have hany : ¬ (filterDeps minifierCandidates d0).any
        (fun p => p.1 == sc.minifier) = true := by
      intro hx
      obtain ⟨p, hp, hpe⟩ := List.any_eq_true.mp hx
      have h0 : minifierCandidates.contains p.1 = false :=
        fst_mem_filterDeps_not_contains _ d0 p.1 (List.mem_map.mpr ⟨p, hp, rfl⟩)
      have h1 : p.1 = sc.minifier := by simpa using hpe
      rw [h1] at h0
      simp [hmf] at h0
    unfold countCandidates
    rw [List.countP_append]
    have hleft :
        (((removeMinifiers json).dependencies.getD []).map Prod.fst).countP
          (fun k => minifierCandidates.contains k) = 0 := by
      have hdeps : (removeMinifiers json).dependencies
          = json.dependencies.map (filterDeps minifierCandidates) := rfl
      rw [hdeps]
      cases json.dependencies with
      | none => rfl
      | some l => simpa using countP_fst_filterDeps_zero minifierCandidates l
    have hright :
        ((setKey (filterDeps minifierCandidates d0) sc.minifier "*").map Prod.fst).countP
          (fun k => minifierCandidates.contains k) = 1 := by
      rw [setKey_eq_append _ _ _ hany, List.map_append, List.countP_append,
        countP_fst_filterDeps_zero]
      simp [hmf]
    simp only [Option.getD_some] at hleft hright ⊢
    rw [hleft, hright] at *

/-- C6 witness: a concrete manifest that starts with a minifier in
dependencies ends the preparing step of the Default Terser scenario with
exactly one candidate name. -/
theorem claim6_at_most_one_minifier_witness :
    countCandidates
        { dependencies := some [],
          devDependencies := some [("left-pad", "1"), ("ember-cli-terser", "*")],
          rest := [] } ≤ 1 := by
  refine claim6_at_most_one_minifier
    { dependencies := some [("ember-cli-terser", "1")],
      devDependencies := some [("left-pad", "1")], rest := [] }
    { name := "Default Terser", minifier := TERSER, appConfig := [(TERSER, Json.obj [])] }
    ?_ _ ?_
  · unfold SCENARIOS
    exact List.mem_cons_self _ _
  · decide

/-- A property of the object literal passed to a new EmberApp(...) call,
as matched by the jscodeshift filter on j.Property with a key value:
whether the key is a string literal (identifier keys carry a name, not a
value, and never match the filter), the key text, and the printed source
text of the value expression. -/
structure PropNode where
  keyIsStringLiteral : Bool
  key : String
  valueText : String
deriving DecidableEq

/-- The ember-cli-build.js source as the patcher sees it: the opaque
source fragments around and between the patched property values (kept
byte-for-byte by the recast printer), and the property list of every
new EmberApp(...) call site. -/
structure BuildSrc where
  surrounding : List String
  calls : List (List PropNode)
deriving DecidableEq

/-- One jscodeshift replaceWith pass for a single config key: a property
whose key is the string literal key is replaced by the printed text
quoted-key colon newText, which re-parses as a string-literal-keyed
property carrying the new value text. -/
def rewriteProp (key newText : String) (p : PropNode) : PropNode :=
  if p.keyIsStringLiteral && p.key == key then
    { keyIsStringLiteral := true, key := key, valueText := newText }
  else p

/-- applyConfig: for each config entry in order, rewrite every matching
property of every EmberApp call site to the JSON-serialized value, then
print the tree back. -/
def applyConfig (config : List (String × Json)) (src : BuildSrc) : BuildSrc :=
  config.foldl
    (fun s kv =>
      { s with
        calls := s.calls.map (fun props => props.map (rewriteProp kv.1 (Json.serialize kv.2))) })
    src

/-- cleanConfig: the same traversal over the same keys with the value
replaced by the serialized empty object literal. -/
def cleanConfig (config : List (String × Json)) (src : BuildSrc) : BuildSrc :=
  config.foldl
    (fun s kv =>
      { s with
        calls := s.calls.map
          (fun props => props.map (rewriteProp kv.1 (Json.serialize (Json.obj [])))) })
    src

/-- Sequential effect of a whole config on one property node. -/
def applySem : List (String × Json) → PropNode → PropNode
  | [], p => p
  | (k, v) :: rest, p => applySem rest (rewriteProp k (Json.serialize v) p)

theorem rewriteProp_key (key newText : String) (p : PropNode) :
    (rewriteProp key newText p).key = p.key := by
  unfold rewriteProp
  by_cases h : (p.keyIsStringLiteral && p.key == key) = true
  · rw [if_pos h]
    have := (Bool.and_eq_true _ _).mp h
    simpa using (eq_of_beq this.2).symm
  · rw [if_neg h]

theorem rewriteProp_lit (key newText : String) (p : PropNode) :
    (rewriteProp key newText p).keyIsStringLiteral = p.keyIsStringLiteral := by
  unfold rewriteProp
  by_cases h : (p.keyIsStringLiteral && p.key == key) = true
  · rw [if_pos h]
    exact ((Bool.and_eq_true _ _).mp h).1.symm
  · rw [if_neg h]

theorem applySem_key (config : List (String × Json)) (p : PropNode) :
    (applySem config p).key = p.key := by
  induction config generalizing p with
  | nil => rfl
  | cons kv rest ih =>
    cases kv with
    | mk k v => rw [applySem, ih, rewriteProp_key]

theorem applySem_lit (config : List (String × Json)) (p : PropNode) :
    (applySem config p).keyIsStringLiteral = p.keyIsStringLiteral := by
  induction config generalizing p with
  | nil => rfl
  | cons kv rest ih =>
    cases kv with
    | mk k v => rw [applySem, ih, rewriteProp_lit]

/-- Sequential effect of cleanConfig on one property node. -/
def cleanSem : List (String × Json) → PropNode → PropNode
  | [], p => p
  | (k, _) :: rest, p => cleanSem rest (rewriteProp k (Json.serialize (Json.obj [])) p)

theorem applyConfig_decomp (config : List (String × Json)) (src : BuildSrc) :
    applyConfig config src
      = ⟨src.surrounding, src.calls.map (List.map (applySem config))⟩ := by
  induction config generalizing src with
  | nil =>
    cases src with
    | mk surr calls => simp [applyConfig, applySem]
  | cons kv rest ih =>
    cases kv with
    | mk k v =>
      have step1 : applyConfig ((k, v) :: rest) src
          = applyConfig rest
              { src with
                calls := src.calls.map
                  (fun props => props.map (rewriteProp k (Json.serialize v))) } := rfl
      rw [step1, ih]
      simp [List.map_map, Function.comp, applySem]

theorem cleanConfig_eq_applyConfig_empties (config : List (String × Json)) (src : BuildSrc) :
    cleanConfig config src
      = applyConfig (config.map (fun kv => (kv.1, Json.obj []))) src := by
  induction config generalizing src with
  | nil => rfl
  | cons kv rest ih =>
    cases kv with
    | mk k v =>
      have h1 : cleanConfig ((k, v) :: rest) src = cleanConfig rest
          { src with
            calls := src.calls.map
              (fun props => props.map (rewriteProp k (Json.serialize (Json.obj [])))) } := rfl
      have h2 : applyConfig (((k, v) :: rest).map (fun kv => (kv.1, Json.obj []))) src
          = applyConfig (rest.map (fun kv => (kv.1, Json.obj [])))
              { src with
                calls := src.calls.map
                  (fun props => props.map (rewriteProp k (Json.serialize (Json.obj [])))) } := rfl
      rw [h1, h2, ih]

theorem cleanSem_eq_applySem (config : List (String × Json)) (p : PropNode) :
    applySem (config.map (fun kv => (kv.1, Json.obj []))) p = cleanSem config p := by
  induction config generalizing p with
  | nil => rfl
  | cons kv rest ih =>
    cases kv with
    | mk k v =>
      simp only [List.map_cons]
      rw [show applySem ((k, Json.obj []) :: rest.map (fun kv => (kv.1, Json.obj []))) p
          = applySem (rest.map (fun kv => (kv.1, Json.obj [])))
              (rewriteProp k (Json.serialize (Json.obj [])) p) from rfl]
      rw [ih, cleanSem]

theorem cleanSem_char (config : List (String × Json)) (p : PropNode) :
    cleanSem config p =
      if p.keyIsStringLiteral && config.any (fun kv => kv.1 == p.key) then
        { keyIsStringLiteral := true, key := p.key,
          valueText := Json.serialize (Json.obj []) }
      else p := by
  induction config generalizing p with
  | nil => simp [cleanSem]
  | cons kv rest ih =>
    cases kv with
    | mk k v =>
      rw [cleanSem]
      by_cases hm : (p.keyIsStringLiteral && p.key == k) = true
      · have hl := ((Bool.and_eq_true _ _).mp hm).1
        have hk : p.key = k := eq_of_beq ((Bool.and_eq_true _ _).mp hm).2
        rw [rewriteProp, if_pos hm, ih]
        subst hk
        simp [hl]
      · rw [rewriteProp, if_neg hm, ih]
        by_cases hl : p.keyIsStringLiteral = true
        · have hkne : ¬ p.key = k := by
            intro hc
            exact hm (by simp [hl, hc])
          have hkne2 : (k == p.key) = false := by
            simp
            intro hc
            exact hkne hc.symm
          simp only [List.any_cons, hkne2, Bool.false_or]
        · simp [hl]

theorem applySem_no_match (config : List (String × Json)) (p : PropNode)
    (h : ¬ (p.keyIsStringLiteral && config.any (fun kv => kv.1 == p.key)) = true) :
    applySem config p = p := by
  induction config generalizing p with
  | nil => rfl
  | cons kv rest ih =>
    cases kv with
    | mk k v =>
      rw [applySem, rewriteProp]
      have hm : ¬ (p.keyIsStringLiteral && p.key == k) = true := by
        intro hc
        apply h
        have hparts := (Bool.and_eq_true _ _).mp hc
        have hk : p.key = k := eq_of_beq hparts.2
        simp [hparts.1, hk]
      rw [if_neg hm]
      apply ih
      intro hc
      apply h
      have hparts := (Bool.and_eq_true _ _).mp hc
      simp only [hparts.1, Bool.true_and, List.any_cons] at hc ⊢
      simp [hc]

theorem cleanSem_applySem (config : List (String × Json)) (p : PropNode) :
    cleanSem config (applySem config p) = cleanSem config p := by
  by_cases h : (p.keyIsStringLiteral && config.any (fun kv => kv.1 == p.key)) = true
  · rw [cleanSem_char, cleanSem_char, applySem_key, applySem_lit, if_pos h, if_pos h]
  · rw [applySem_no_match config p h]

/-- C4: clearing after applying - cleanConfig over the keys of a config,
run on the output of applyConfig for that config - produces exactly the
source obtained by applying an empty-object override for each key; every
matched string-literal-keyed property of an EmberApp call ends at the
serialized empty object, every other property and all surrounding source
text are unchanged. -/
theorem claim4_clean_after_apply (src : BuildSrc) (config : List (String × Json)) :
    cleanConfig config (applyConfig config src)
      = applyConfig (config.map (fun kv => (kv.1, Json.obj []))) src
    ∧ (cleanConfig config (applyConfig config src)).surrounding = src.surrounding
    ∧ (cleanConfig config (applyConfig config src)).calls
      = src.calls.map (List.map (fun p =>
          if p.keyIsStringLiteral && config.any (fun kv => kv.1 == p.key) then
            { keyIsStringLiteral := true, key := p.key,
              valueText := Json.serialize (Json.obj []) }
          else p)) := by
  have hcomp : applySem (config.map (fun kv => (kv.1, Json.obj []))) ∘ applySem config
      = cleanSem config := by
    funext p
    rw [Function.comp_apply, cleanSem_eq_applySem, cleanSem_applySem]
  have hmain : cleanConfig config (applyConfig config src)
      = ⟨src.surrounding, src.calls.map (List.map (cleanSem config))⟩ := by
    rw [cleanConfig_eq_applyConfig_empties, applyConfig_decomp, applyConfig_decomp]
    show (⟨src.surrounding,
        (src.calls.map (List.map (applySem config))).map
          (List.map (applySem (config.map (fun kv => (kv.1, Json.obj [])))))⟩ : BuildSrc) = _
    rw [List.map_map]
    congr 1
    refine congrArg (fun f => List.map f src.calls) ?_
    funext props
    rw [Function.comp_apply, List.map_map, hcomp]
  have hfe : applySem (config.map (fun kv => (kv.1, Json.obj []))) = cleanSem config :=
    funext (fun p => cleanSem_eq_applySem config p)
  have hfe2 : cleanSem config = (fun p =>
      if p.keyIsStringLiteral && config.any (fun kv => kv.1 == p.key) then
        { keyIsStringLiteral := true, key := p.key,
          valueText := Json.serialize (Json.obj []) }
      else p) :=
    funext (fun p => cleanSem_char config p)
  refine ⟨?_, ?_, ?_⟩
  · rw [hmain, applyConfig_decomp, hfe]
  · rw [hmain]
  · rw [hmain, hfe2]

theorem lookup_eq_none_of_not_mem_fst (config : List (String × Json)) (a : String)
    (h : a ∉ config.map Prod.fst) : config.lookup a = none := by
  induction config with
  | nil => rfl
  | cons kv rest ih =>
    cases kv with
    | mk k v =>
      have h1 : ¬ a = k := by
        intro he
        exact h (by simp [he])
      have h2 : a ∉ rest.map Prod.fst := by
        intro he
        exact h (by simp [he])
      rw [List.lookup]
      have hb : (a == k) = false := by simp [h1]
      rw [hb]
      exact ih h2

theorem applySem_lookup (config : List (String × Json)) (p : PropNode)
    (hnd : (config.map Prod.fst).Nodup) :
    applySem config p =
      if p.keyIsStringLiteral then
        match config.lookup p.key with
        | some v => { keyIsStringLiteral := true, key := p.key,
                      valueText := Json.serialize v }
        | none => p
      else p := by
  induction config generalizing p with
  | nil =>
    cases hp : p.keyIsStringLiteral <;> simp [applySem, List.lookup, hp]
  | cons kv rest ih =>
    cases kv with
    | mk k v =>
      rw [List.map_cons] at hnd
      have hpair := List.nodup_cons.mp hnd
      have hknotin : k ∉ rest.map Prod.fst := hpair.1
      have hndr : (rest.map Prod.fst).Nodup := hpair.2
      rw [applySem]
      by_cases hm : (p.keyIsStringLiteral && p.key == k) = true
      · have hl := ((Bool.and_eq_true _ _).mp hm).1
        have hkey : p.key = k := eq_of_beq ((Bool.and_eq_true _ _).mp hm).2
        rw [rewriteProp, if_pos hm, ih _ hndr]
        have hlook : rest.lookup k = none := lookup_eq_none_of_not_mem_fst rest k hknotin
        simp only [hlook]
        rw [List.lookup]
        have hb : (p.key == k) = true := by simp [hkey]
        rw [hb]
        simp [hl, hkey]
      · rw [rewriteProp, if_neg hm, ih _ hndr]
        by_cases hl : p.keyIsStringLiteral = true
        · have hkne : ¬ p.key = k := by
            intro hc
            exact hm (by simp [hl, hc])
          rw [List.lookup]
          have hb : (p.key == k) = false := by simp [hkne]
          rw [hb]
        · simp [hl]

/-- C9: applyConfig replaces the value of every string-literal-keyed
property matching a config key inside every EmberApp constructor call with
the JSON-serialized override; a key with no matching property changes
nothing for that key, and all surrounding source text is untouched. -/
theorem claim9_applyConfig_spec (config : List (String × Json)) (src : BuildSrc)
    (hnd : (config.map Prod.fst).Nodup) :
    (applyConfig config src).surrounding = src.surrounding
    ∧ (applyConfig config src).calls
      = src.calls.map (List.map (fun p =>
          if p.keyIsStringLiteral then
            match config.lookup p.key with
            | some v => { keyIsStringLiteral := true, key := p.key,
                          valueText := Json.serialize v }
            | none => p
          else p)) := by
  have hfe : applySem config = (fun p : PropNode =>
      if p.keyIsStringLiteral then
        match config.lookup p.key with
        | some v => { keyIsStringLiteral := true, key := p.key,
                      valueText := Json.serialize v }
        | none => p
      else p) :=
    funext (fun p => applySem_lookup config p hnd)
  rw [applyConfig_decomp]
  exact ⟨rfl, by rw [hfe]⟩

/-- C9 witness: a concrete build file with one EmberApp call whose
matching property gets the serialized empty object while an
identifier-keyed property and the surrounding text are untouched. -/
theorem claim9_applyConfig_spec_witness :
    (applyConfig [("ember-cli-terser", Json.obj [])]
        ⟨["before", "after"],
         [[⟨true, "ember-cli-terser", "oldValue"⟩, ⟨false, "storeConfigInMeta", "false"⟩]]⟩).calls
      = [[⟨true, "ember-cli-terser", "\x7b\x7d"⟩, ⟨false, "storeConfigInMeta", "false"⟩]] := by
  rw [(claim9_applyConfig_spec [("ember-cli-terser", Json.obj [])]
    ⟨["before", "after"],
     [[⟨true, "ember-cli-terser", "oldValue"⟩, ⟨false, "storeConfigInMeta", "false"⟩]]⟩
    (by decide)).2]
  rfl

/-- Dependency manager as detected by the script. -/
inductive DepManager where
  | npm
  | yarn
deriving DecidableEq

/-- The SETTINGS record of the newer revision, as written in the source:
hideChunks is true and forceDepManager is the string value yarn. -/
structure Settings where
  hideChunks : Bool
  forceDepManager : Option DepManager

/-- SETTINGS constant of the newer revision. -/
def SETTINGS : Settings := { hideChunks := true, forceDepManager := some DepManager.yarn }

/-- detectDependencyManager, parameterized by the forced manager of the
surrounding revision: a truthy SETTINGS.forceDepManager short-circuits
the lockfile checks; otherwise yarn.lock wins over package-lock.json and
neither lockfile throws.  The older index.js revision has no SETTINGS and
corresponds to force = none. -/
def detectDependencyManager (force : Option DepManager)
    (hasYarnLock hasPackageLock : Bool) : Except String DepManager :=
  match force with
  | some m => Except.ok m
  | none =>
    if hasYarnLock then Except.ok DepManager.yarn
    else if hasPackageLock then Except.ok DepManager.npm
    else Except.error
      "Could not determine dependency manager or dependency manager is not supported"

/-- Outcome of the external steps of one scenario: success carrying a
recordable result, or a failing install or build process (non-zero
exit, which execa surfaces as a thrown error). -/
inductive StepOutcome where
  | success
  | installFail
  | buildFail
deriving DecidableEq

/-- Observable events of a run in order: a scenario is attempted (its
banner is announced and its steps start), a ScenarioResult is recorded
into results under the scenario's display name, or cleanConfig reverts
the scenario's overrides. -/
inductive RunEvent where
  | attempt (name : String)
  | record (name : String)
  | clean (name : String)
deriving DecidableEq

/-- Scenario loop of the newer revision's run: a try/catch/finally whose
catch logs and swallows the error, so the loop always proceeds to later
scenarios; a result is recorded only when every step succeeded, and
cleanConfig runs in the finally block in every case. -/
def runEventsCatch : List (String × StepOutcome) → List RunEvent
  | [] => []
  | (n, o) :: rest =>
    RunEvent.attempt n ::
      ((match o with
        | StepOutcome.success => [RunEvent.record n, RunEvent.clean n]
        | _ => [RunEvent.clean n]) ++ runEventsCatch rest)

/-- Scenario loop of the older index.js revision: a try/finally with no
catch, so a failing step runs cleanConfig in the finally block and then
rethrows out of run, aborting the loop before any later scenario. -/
def runEventsNoCatch : List (String × StepOutcome) → List RunEvent
  | [] => []
  | (n, o) :: rest =>
    RunEvent.attempt n ::
      (match o with
       | StepOutcome.success =>
         RunEvent.record n :: RunEvent.clean n :: runEventsNoCatch rest
       | _ => [RunEvent.clean n])

/-- run of the newer revision: detectDependencyManager first (with the
SETTINGS force in effect), then the catching scenario loop. -/
def runP0 (hasYarnLock hasPackageLock : Bool)
    (scenarios : List (String × StepOutcome)) : Except String (List RunEvent) :=
  match detectDependencyManager SETTINGS.forceDepManager hasYarnLock hasPackageLock with
  | Except.error e => Except.error e
  | Except.ok _ => Except.ok (runEventsCatch scenarios)

/-- run of the older index.js revision: detectDependencyManager with no
forced manager, then the loop without catch. -/
def runIndex (hasYarnLock hasPackageLock : Bool)
    (scenarios : List (String × StepOutcome)) : Except String (List RunEvent) :=
  match detectDependencyManager none hasYarnLock hasPackageLock with
  | Except.error e => Except.error e
  | Except.ok _ => Except.ok (runEventsNoCatch scenarios)

theorem runEventsNoCatch_fail_cons (n : String) (o : StepOutcome)
    (post : List (String × StepOutcome)) (ho : o ≠ StepOutcome.success) :
    runEventsNoCatch ((n, o) :: post) = [RunEvent.attempt n, RunEvent.clean n] := by
  cases o with
  | success => exact absurd rfl ho
  | installFail => rfl
  | buildFail => rfl

theorem runEventsNoCatch_append_success (pre l2 : List (String × StepOutcome))
    (hpre : ∀ q ∈ pre, q.2 = StepOutcome.success) :
    runEventsNoCatch (pre ++ l2) = runEventsNoCatch pre ++ runEventsNoCatch l2 := by
  induction pre with
  | nil => rfl
  | cons q rest ih =>
    cases q with
    | mk m o =>
      have ho : o = StepOutcome.success := hpre (m, o) (List.mem_cons_self _ _)
      subst ho
      rw [List.cons_append, runEventsNoCatch, runEventsNoCatch]
      simp [ih (fun q hq => hpre q (List.mem_cons_of_mem _ hq))]

/-- C3 counterexample: in the older index.js revision a failing first
scenario runs its cleanup but aborts the run, so the next scenario is
never attempted, refuting the proceeds-to-the-next-scenario part of the
claim for that revision. -/
theorem claim3_run_counterexample :
    runEventsNoCatch [("A", StepOutcome.buildFail), ("B", StepOutcome.success)]
      = [RunEvent.attempt "A", RunEvent.clean "A"]
    ∧ RunEvent.attempt "B"
        ∉ runEventsNoCatch [("A", StepOutcome.buildFail), ("B", StepOutcome.success)]
    ∧ RunEvent.record "A"
        ∉ runEventsNoCatch [("A", StepOutcome.buildFail), ("B", StepOutcome.success)] := by
  refine ⟨rfl, ?_, ?_⟩ <;> decide

/-- C3 amended: in both revisions a scenario whose install or build fails
records no ScenarioResult and still has its config overrides reverted;
in the newer revision (try/catch/finally) the loop then proceeds to the
next scenario, while in the older index.js revision (try/finally, no
catch) the cleanup runs and the whole run aborts, so scenarios after the
first failure are never attempted. -/
theorem claim3_failure_policy (scenarios : List (String × StepOutcome)) :
    (∀ n, RunEvent.record n ∈ runEventsCatch scenarios
      ↔ (n, StepOutcome.success) ∈ scenarios)
    ∧ (∀ n o, (n, o) ∈ scenarios → RunEvent.clean n ∈ runEventsCatch scenarios)
    ∧ (∀ n o, (n, o) ∈ scenarios → RunEvent.attempt n ∈ runEventsCatch scenarios)
    ∧ (∀ pre n o post, scenarios = pre ++ (n, o) :: post →
        (∀ q ∈ pre, q.2 = StepOutcome.success) → o ≠ StepOutcome.success →
        runEventsNoCatch scenarios
            = runEventsNoCatch pre ++ [RunEvent.attempt n, RunEvent.clean n]
          ∧ RunEvent.clean n ∈ runEventsNoCatch scenarios
          ∧ RunEvent.record n ∉ runEventsNoCatch ((n, o) :: post)) := by
  refine ⟨?_, ?_, ?_, ?_⟩
  · intro n
    induction scenarios with
    | nil => simp [runEventsCatch]
    | cons q rest ih =>
      cases q with
      | mk m o =>
        cases o <;> simp [runEventsCatch, ih]
  · intro n o hmem
    induction scenarios with
    | nil => simp at hmem
    | cons q rest ih =>
      cases q with
      | mk m o2 =>
        rcases List.mem_cons.mp hmem with h | h
        · obtain ⟨rfl, rfl⟩ := Prod.mk.injEq .. ▸ h
          cases o <;> simp [runEventsCatch]
        · cases o2 <;> simp [runEventsCatch] <;> exact Or.inr (ih h)
  · intro n o hmem
    induction scenarios with
    | nil => simp at hmem
    | cons q rest ih =>
      cases q with
      | mk m o2 =>
        rcases List.mem_cons.mp hmem with h | h
        · obtain ⟨rfl, rfl⟩ := Prod.mk.injEq .. ▸ h
          cases o <;> simp [runEventsCatch]
        · cases o2 <;> simp [runEventsCatch] <;> exact Or.inr (ih h)
  · intro pre n o post hs hpre ho
    subst hs
    have h1 : runEventsNoCatch (pre ++ (n, o) :: post)
        = runEventsNoCatch pre ++ [RunEvent.attempt n, RunEvent.clean n] := by
      rw [runEventsNoCatch_append_success pre _ hpre,
        runEventsNoCatch_fail_cons n o post ho]
    refine ⟨h1, ?_, ?_⟩
    · rw [h1]
      simp
    · rw [runEventsNoCatch_fail_cons n o post ho]
      simp

/-- C3 witness: the failure policy theorem instantiated on a concrete
two-scenario run whose first scenario fails its install step. -/
theorem claim3_failure_policy_witness :
    RunEvent.clean "A"
        ∈ runEventsCatch [("A", StepOutcome.installFail), ("B", StepOutcome.success)]
    ∧ RunEvent.attempt "B"
        ∈ runEventsCatch [("A", StepOutcome.installFail), ("B", StepOutcome.success)]
    ∧ runEventsNoCatch [("A", StepOutcome.installFail), ("B", StepOutcome.success)]
        = [RunEvent.attempt "A", RunEvent.clean "A"] := by
  have h := claim3_failure_policy [("A", StepOutcome.installFail), ("B", StepOutcome.success)]
  refine ⟨h.2.1 "A" StepOutcome.installFail (by decide),
    h.2.2.1 "B" StepOutcome.success (by decide), ?_⟩
  have h4 := h.2.2.2 [] "A" StepOutcome.installFail [("B", StepOutcome.success)] rfl
    (by decide) (by decide)
  rw [h4.1]
  rfl

/-- C5 counterexample: in the newer revision SETTINGS.forceDepManager is
yarn, so with neither lockfile present detection succeeds anyway and the
run proceeds into the scenario loop instead of aborting. -/
theorem claim5_detect_counterexample :
    detectDependencyManager SETTINGS.forceDepManager false false
      = Except.ok DepManager.yarn
    ∧ runP0 false false [("A", StepOutcome.success)]
      = Except.ok [RunEvent.attempt "A", RunEvent.record "A", RunEvent.clean "A"] := by
  exact ⟨rfl, rfl⟩

/-- C5 amended: with no forced dependency manager (the older index.js
revision, or the newer one with forceDepManager unset) and neither
lockfile present, detection throws the could-not-determine error and run
aborts before any scenario is attempted; with a forced manager configured
(the newer revision as written) detection succeeds regardless of
lockfiles. -/
theorem claim5_detect_spec (force : Option DepManager)
    (scenarios : List (String × StepOutcome)) :
    (detectDependencyManager force false false
        = Except.error
            "Could not determine dependency manager or dependency manager is not supported"
      ↔ force = none)
    ∧ runIndex false false scenarios
        = Except.error
            "Could not determine dependency manager or dependency manager is not supported"
    ∧ (∀ m, force = some m →
        detectDependencyManager force false false = Except.ok m) := by
  refine ⟨?_, rfl, ?_⟩
  · cases force <;> simp [detectDependencyManager]
  · intro m hm
    subst hm
    rfl

/-- C5 witness: the detection spec instantiated with no forced manager
and with the forced yarn manager of the newer revision. -/
theorem claim5_detect_spec_witness :
    detectDependencyManager none false false
      = Except.error
          "Could not determine dependency manager or dependency manager is not supported"
    ∧ detectDependencyManager (some DepManager.yarn) false false
      = Except.ok DepManager.yarn := by
  exact ⟨(claim5_detect_spec none []).1.mpr rfl,
    (claim5_detect_spec (some DepManager.yarn) []).2.2 DepManager.yarn rfl⟩

/-- Math.round on an exact rational: floor of x + 1/2, which rounds
half-values toward positive infinity exactly like the JavaScript builtin
on finite numbers. -/
def jsRound (x : ℚ) : ℤ := ⌊x + 1 / 2⌋

/-- twoDecimals: Math.round(num * 100) / 100. -/
def twoDecimals (num : ℚ) : ℚ := (jsRound (num * 100) : ℚ) / 100

/-- JavaScript default string rendering of a number of the form k/100
(the only shape twoDecimals produces): optional minus sign, integer part,
then the fractional hundredths with trailing zeros dropped and nothing
after the integer part when the fraction is zero. -/
def renderHundredths (k : ℤ) : String :=
  let sign := if k < 0 then "-" else ""
  let a := k.natAbs
  let ip := a / 100
  let fr := a % 100
  if fr = 0 then sign ++ toString ip
  else if fr % 10 = 0 then sign ++ toString ip ++ "." ++ toString (fr / 10)
  else if fr < 10 then sign ++ toString ip ++ ".0" ++ toString fr
  else sign ++ toString ip ++ "." ++ toString fr

/-- Rendering of a two-decimals rational: its value in hundredths. -/
def renderQ (q : ℚ) : String := renderHundredths (q * 100).num

/-- deltaPercent: the two-decimals rounding of (current / min - 1) * 100,
prefixed with a plus sign unless the rounded value is negative, and
suffixed with a percent sign. -/
def deltaPercent (mn current : ℚ) : String :=
  let diff := twoDecimals ((current / mn - 1) * 100)
  (if diff < 0 then "" else "+") ++ renderQ diff ++ "%"

/-- C1: for a positive minimum, the reported delta string is the rounded
percentage with a leading plus exactly when the rounded value is
non-negative; the minimum scenario itself reports +0% and a scenario at
twice the minimum reports +100%. -/
theorem claim1_deltaPercent (mn : ℚ) (hmn : 0 < mn) :
    (∀ current : ℚ, deltaPercent mn current
      = (if twoDecimals ((current / mn - 1) * 100) < 0 then "" else "+")
          ++ renderQ (twoDecimals ((current / mn - 1) * 100)) ++ "%")
    ∧ deltaPercent mn mn = "+0%"
    ∧ deltaPercent mn (2 * mn) = "+100%" := by
  have hgen : ∀ current : ℚ, deltaPercent mn current
      = (if twoDecimals ((current / mn - 1) * 100) < 0 then "" else "+")
          ++ renderQ (twoDecimals ((current / mn - 1) * 100)) ++ "%" := fun _ => rfl
  have hmn0 : mn ≠ 0 := ne_of_gt hmn
  have e1 : (mn / mn - 1) * 100 = 0 := by
    rw [div_self hmn0]
    ring
  have e2 : (2 * mn / mn - 1) * 100 = 100 := by
    rw [mul_div_assoc, div_self hmn0]
    ring
  have t0 : twoDecimals 0 = 0 := by
    unfold twoDecimals jsRound
    norm_num
  have t100 : twoDecimals 100 = 100 := by
    unfold twoDecimals jsRound
    norm_num
  refine ⟨hgen, ?_, ?_⟩
  · rw [hgen mn, e1, t0]
    norm_num
    rw [show renderQ 0 = renderHundredths ((0 : ℚ) * 100).num from rfl]
    norm_num
    rfl
  · rw [hgen (2 * mn), e2, t100]
    norm_num
    rw [show renderQ 100 = renderHundredths ((100 : ℚ) * 100).num from rfl]
    norm_num
    rfl

/-- C1 witness: instantiation at minimum 1, giving the concrete strings
+0% for the minimum itself and +100% for twice the minimum. -/
theorem claim1_deltaPercent_witness :
    deltaPercent 1 1 = "+0%" ∧ deltaPercent 1 (2 * 1) = "+100%" :=
  ⟨(claim1_deltaPercent 1 one_pos).2.1, (claim1_deltaPercent 1 one_pos).2.2⟩

/-- Prefix test on character lists (does the first list start the
second). -/
def isPre : List Char → List Char → Bool
  | [], _ => true
  | _ :: _, [] => false
  | x :: xs, y :: ys => x == y && isPre xs ys

/-- Fuel-indexed body of the JavaScript String.prototype.split with a
non-empty string separator: at each position, a separator occurrence
emits a boundary and skips the separator, any other character joins the
current piece.  The fuel is the length of the list, enough for every
step. -/
def jsSplitAux (sep : List Char) : Nat → List Char → List (List Char)
  | 0, l => [l]
  | _ + 1, [] => [[]]
  | n + 1, x :: xs =>
    if isPre sep (x :: xs) then
      [] :: jsSplitAux sep n ((x :: xs).drop sep.length)
    else
      match jsSplitAux sep n xs with
      | [] => [[x]]
      | y :: ys => (x :: y) :: ys

/-- JavaScript split with a string separator (the script only ever splits
on the non-empty separator dist/assets/). -/
def jsSplit (sep l : List Char) : List (List Char) :=
  if sep.isEmpty then l.map (fun c => [c]) else jsSplitAux sep l.length l

/-- Prepend a character onto the first piece of a split result. -/
def consHead (a : Char) : List (List Char) → List (List Char)
  | [] => [[a]]
  | y :: ys => (a :: y) :: ys

/-- JavaScript split with a single-character separator, as used for the
dot and dash splits of assertShortName. -/
def splitOnChar (c : Char) : List Char → List (List Char)
  | [] => [[]]
  | x :: xs => if x = c then [] :: splitOnChar c xs else consHead x (splitOnChar c xs)

/-- Does the separator occur anywhere in the list. -/
def occurs (sep : List Char) : List Char → Bool
  | [] => sep.isEmpty
  | x :: xs => isPre sep (x :: xs) || occurs sep xs

/-- The ext accumulation loop of assertShortName: every dot-separated
piece of at most two characters is appended to the extension with a
leading dot. -/
def extOf (extParts : List (List Char)) : List Char :=
  extParts.foldl (fun acc p => if p.length ≤ 2 then acc ++ '.' :: p else acc) []

/-- The shortName computation of assertShortName: first dash-separated
piece, then its first dot-separated piece concatenated with the second
one when present (parts[1] or the empty string, and an empty piece
behaves the same either way). -/
def shortNameOf (shortPath : List Char) : List Char :=
  let parts := splitOnChar '.' ((splitOnChar '-' shortPath).headD [])
  parts.headD [] ++ parts.getD 1 []

/-- Result record of assertShortName. -/
structure ShortNameInfo where
  shortName : String
  ext : String
  withExt : String
deriving DecidableEq

/-- assertShortName: everything after dist/assets/ (none means the split
has no second piece and the subsequent property access throws), then the
extension from the short dot pieces, the short name from the first dash
piece, and their concatenation. -/
def assertShortName (filePath : String) : Option ShortNameInfo :=
  match (jsSplit "dist/assets/".data filePath.data).get? 1 with
  | none => none
  | some shortPath =>
    some { shortName := ⟨shortNameOf shortPath⟩,
           ext := ⟨extOf (splitOnChar '.' shortPath)⟩,
           withExt := ⟨shortNameOf shortPath ++ extOf (splitOnChar '.' shortPath)⟩ }

/-- C2 counterexample: two chunk-style file names that differ only in a
content hash sitting in the second dot-separated position normalize to
different family keys, because the short name glues the first two dot
pieces together and so absorbs the hash. -/
theorem claim2_assertShortName_counterexample :
    assertShortName "dist/assets/chunk.abc123def.js"
      = some { shortName := "chunkabc123def", ext := ".js", withExt := "chunkabc123def.js" }
    ∧ assertShortName "dist/assets/chunk.def456abc.js"
      = some { shortName := "chunkdef456abc", ext := ".js", withExt := "chunkdef456abc.js" }
    ∧ ("chunkabc123def.js" : String) ≠ "chunkdef456abc.js" := by
  refine ⟨?_, ?_, ?_⟩ <;> decide

theorem isPre_append_self (s t : List Char) : isPre s (s ++ t) = true := by
  induction s with
  | nil => rfl
  | cons a s2 ih => simp [isPre, ih]

theorem isPre_mem (s l : List Char) (hp : isPre s l = true) :
    ∀ c ∈ s, c ∈ l := by
  induction s generalizing l with
  | nil => intro c hc; simp at hc
  | cons a s2 ih =>
    cases l with
    | nil => simp [isPre] at hp
    | cons y ys =>
      rw [isPre, Bool.and_eq_true] at hp
      have hay : a = y := by simpa using hp.1
      intro c hc
      rcases List.mem_cons.mp hc with h | h
      · subst h
        exact hay ▸ List.mem_cons_self _ _
      · exact List.mem_cons_of_mem _ (ih ys hp.2 c h)

theorem occurs_eq_false (sep l : List Char) (c0 : Char) (hc0 : c0 ∈ sep)
    (hl : ∀ c ∈ l, c ≠ c0) : occurs sep l = false := by
  induction l with
  | nil =>
    cases sep with
    | nil => simp at hc0
    | cons s ss => rfl
  | cons x xs ih =>
    rw [occurs]
    have h1 : isPre sep (x :: xs) = false := by
      cases hp : isPre sep (x :: xs)
      · rfl
      · exact absurd rfl (hl c0 (isPre_mem sep (x :: xs) hp c0 hc0))
    rw [h1]
    simp only [Bool.false_or]
    exact ih (fun c hc => hl c (List.mem_cons_of_mem _ hc))

theorem jsSplitAux_no_occur (sep : List Char) :
    ∀ (n : Nat) (l : List Char), occurs sep l = false → jsSplitAux sep n l = [l] := by
  intro n
  induction n with
  | zero => intro l _; rfl
  | succ n ih =>
    intro l hocc
    cases l with
    | nil => rfl
    | cons x xs =>
      rw [occurs, Bool.or_eq_false_iff] at hocc
      simp only [jsSplitAux]
      rw [if_neg (by simp [hocc.1])]
      rw [ih xs hocc.2]

theorem jsSplitAux_sep_prefix (sep rest : List Char) (hne : sep ≠ [])
    (hocc : occurs sep rest = false) (n : Nat) :
    jsSplitAux sep (n + 1) (sep ++ rest) = [[], rest] := by
  cases sep with
  | nil => exact absurd rfl hne
  | cons s ss =>
    have hcond : isPre (s :: ss) (s :: (ss ++ rest)) = true := by
      simpa using isPre_append_self (s :: ss) rest
    have hdrop : (s :: (ss ++ rest)).drop (s :: ss).length = rest := by
      simp
    rw [List.cons_append]
    simp only [jsSplitAux]
    rw [if_pos hcond, hdrop, jsSplitAux_no_occur (s :: ss) n rest hocc]

theorem jsSplit_sep_prefix (sep rest : List Char) (hne : sep ≠ [])
    (hocc : occurs sep rest = false) :
    jsSplit sep (sep ++ rest) = [[], rest] := by
  cases sep with
  | nil => exact absurd rfl hne
  | cons s ss =>
    have hlen : ((s :: ss) ++ rest).length = (ss.length + rest.length) + 1 := by
      simp only [List.length_append, List.length_cons]
      omega
    rw [jsSplit]
    rw [if_neg (by simp)]
    rw [hlen]
    exact jsSplitAux_sep_prefix (s :: ss) rest hne hocc _

theorem splitOnChar_ne_nil (c : Char) (l : List Char) : splitOnChar c l ≠ [] := by
  cases l with
  | nil => simp [splitOnChar]
  | cons x xs =>
    rw [splitOnChar]
    by_cases h : x = c
    · simp [h]
    · rw [if_neg h]
      cases splitOnChar c xs <;> simp [consHead]

/-- Merging of two split results across a concatenation boundary: the
last piece of the first result fuses with the first piece of the
second. -/
def glue : List (List Char) → List (List Char) → List (List Char)
  | [], ys => ys
  | [x], [] => [x]
  | [x], y :: yt => (x ++ y) :: yt
  | x :: x2 :: xs, ys => x :: glue (x2 :: xs) ys

theorem glue_cons_of_ne_nil (x : List Char) (xs ys : List (List Char)) (h : xs ≠ []) :
    glue (x :: xs) ys = x :: glue xs ys := by
  cases xs with
  | nil => exact absurd rfl h
  | cons x2 xt => rfl

theorem consHead_glue (a : Char) (xs ys : List (List Char))
    (hx : xs ≠ []) (hy : ys ≠ []) :
    consHead a (glue xs ys) = glue (consHead a xs) ys := by
  cases xs with
  | nil => exact absurd rfl hx
  | cons x xt =>
    cases xt with
    | nil =>
      cases ys with
      | nil => exact absurd rfl hy
      | cons y yt => simp [glue, consHead]
    | cons x2 xt2 => rfl

theorem splitOnChar_append (c : Char) (A B : List Char) :
    splitOnChar c (A ++ B) = glue (splitOnChar c A) (splitOnChar c B) := by
  induction A with
  | nil =>
    cases hB : splitOnChar c B with
    | nil => exact absurd hB (splitOnChar_ne_nil c B)
    | cons y yt => simp [splitOnChar, glue, hB]
  | cons a A2 ih =>
    rw [List.cons_append, splitOnChar, splitOnChar]
    by_cases h : a = c
    · rw [if_pos h, if_pos h, ih]
      exact (glue_cons_of_ne_nil [] (splitOnChar c A2) (splitOnChar c B)
        (splitOnChar_ne_nil c A2)).symm
    · rw [if_neg h, if_neg h, ih]
      exact consHead_glue a (splitOnChar c A2) (splitOnChar c B)
        (splitOnChar_ne_nil c A2) (splitOnChar_ne_nil c B)

theorem splitOnChar_no_char (c : Char) (A : List Char) (hA : ∀ x ∈ A, x ≠ c) :
    splitOnChar c A = [A] := by
  induction A with
  | nil => rfl
  | cons a A2 ih =>
    rw [splitOnChar, if_neg (hA a (List.mem_cons_self _ _))]
    rw [ih (fun x hx => hA x (List.mem_cons_of_mem _ hx))]
    rfl

theorem glue_dropLast (xs : List (List Char)) (y : List Char) (yt : List (List Char))
    (hx : xs ≠ []) :
    glue xs (y :: yt) = xs.dropLast ++ (xs.getLastD [] ++ y) :: yt := by
  induction xs with
  | nil => exact absurd rfl hx
  | cons x xt ih =>
    cases xt with
    | nil => simp [glue]
    | cons x2 xt2 =>
      rw [glue_cons_of_ne_nil x (x2 :: xt2) (y :: yt) (by simp)]
      rw [ih (by simp)]
      simp [List.dropLast, List.getLastD]

theorem glue_head_nilcons (xs : List (List Char)) (ys : List (List Char)) (hx : xs ≠ []) :
    (glue xs ([] :: ys)).headD [] = xs.headD [] := by
  cases xs with
  | nil => exact absurd rfl hx
  | cons x xt =>
    cases xt with
    | nil => simp [glue]
    | cons x2 xt2 => rfl

theorem extOf_middle_long (I T : List (List Char)) (mid1 mid2 : List Char)
    (h1 : ¬ mid1.length ≤ 2) (h2 : ¬ mid2.length ≤ 2) :
    extOf (I ++ mid1 :: T) = extOf (I ++ mid2 :: T) := by
  unfold extOf
  rw [List.foldl_append, List.foldl_append, List.foldl_cons, List.foldl_cons]
  rw [if_neg h1, if_neg h2]

theorem assertShortName_append (shortPath : List Char)
    (hs : ∀ c ∈ shortPath, c ≠ '/') :
    assertShortName ⟨"dist/assets/".data ++ shortPath⟩
      = some { shortName := ⟨shortNameOf shortPath⟩,
               ext := ⟨extOf (splitOnChar '.' shortPath)⟩,
               withExt := ⟨shortNameOf shortPath ++ extOf (splitOnChar '.' shortPath)⟩ } := by
  have hocc : occurs "dist/assets/".data shortPath = false :=
    occurs_eq_false _ _ '/' (by decide) hs
  have hsplit : jsSplit "dist/assets/".data ("dist/assets/".data ++ shortPath)
      = [[], shortPath] :=
    jsSplit_sep_prefix _ _ (by decide) hocc
  have hdata : (String.mk ("dist/assets/".data ++ shortPath)).data
      = "dist/assets/".data ++ shortPath := rfl
  rw [assertShortName, hdata, hsplit]
  rfl

theorem shortNameOf_no_dash (shortPath : List Char)
    (hnd : ∀ c ∈ shortPath, c ≠ '-') :
    shortNameOf shortPath
      = (splitOnChar '.' shortPath).headD []
          ++ (splitOnChar '.' shortPath).getD 1 [] := by
  unfold shortNameOf
  rw [splitOnChar_no_char '-' shortPath hnd]
  rfl

/-- A content hash as produced by the asset pipeline: at least three
characters, none of which is a dot, a dash or a slash. -/
abbrev goodHash (h : List Char) : Prop :=
  3 ≤ h.length ∧ ∀ c ∈ h, c ≠ '.' ∧ c ≠ '-' ∧ c ≠ '/'

/-- The list avoids a given character. -/
abbrev avoidsChar (c0 : Char) (l : List Char) : Prop := ∀ c ∈ l, c ≠ c0


theorem headD_glue_of_two (xs ys : List (List Char)) (h : 2 ≤ xs.length) :
    (glue xs ys).headD [] = xs.headD [] := by
  cases xs with
  | nil => simp at h
  | cons x xt =>
    cases xt with
    | nil => simp at h
    | cons x2 xt2 => rfl

theorem splitOnChar_length_ge_two (c : Char) (P : List Char) (h : c ∈ P) :
    2 ≤ (splitOnChar c P).length := by
  induction P with
  | nil => simp at h
  | cons a P2 ih =>
    rw [splitOnChar]
    by_cases hac : a = c
    · rw [if_pos hac]
      have h1 : 1 ≤ (splitOnChar c P2).length := by
        cases hq : splitOnChar c P2 with
        | nil => exact absurd hq (splitOnChar_ne_nil c P2)
        | cons y ys => simp
      simp only [List.length_cons]
      omega
    · rw [if_neg hac]
      have hc2 : c ∈ P2 := by
        rcases List.mem_cons.mp h with h0 | h0
        · exact absurd h0.symm hac
        · exact h0
      have h2 := ih hc2
      cases hq : splitOnChar c P2 with
      | nil => exact absurd hq (splitOnChar_ne_nil c P2)
      | cons y ys =>
        rw [hq] at h2
        simp only [consHead, List.length_cons] at h2 ⊢
        omega

theorem splitDots_generic (P h T : List Char) (hdot : ∀ c ∈ h, c ≠ '.') :
    splitOnChar '.' (P ++ (h ++ T))
      = (splitOnChar '.' P).dropLast
          ++ ((splitOnChar '.' P).getLastD []
                ++ (h ++ (splitOnChar '.' T).headD []))
            :: (splitOnChar '.' T).tail := by
  obtain ⟨st0, stt, hST⟩ : ∃ y yt, splitOnChar '.' T = y :: yt := by
    cases hq : splitOnChar '.' T with
    | nil => exact absurd hq (splitOnChar_ne_nil _ _)
    | cons y yt => exact ⟨y, yt, rfl⟩
  rw [splitOnChar_append '.' P (h ++ T), splitOnChar_append '.' h T,
    splitOnChar_no_char '.' h hdot, hST]
  rw [show glue [h] (st0 :: stt) = (h ++ st0) :: stt from rfl]
  rw [glue_dropLast _ _ _ (splitOnChar_ne_nil '.' P)]
  simp

theorem shortNameOf_after_dash (P X : List Char) (hd : '-' ∈ P) :
    shortNameOf (P ++ X)
      = (splitOnChar '.' ((splitOnChar '-' P).headD [])).headD []
          ++ (splitOnChar '.' ((splitOnChar '-' P).headD [])).getD 1 [] := by
  unfold shortNameOf
  rw [splitOnChar_append '-' P X,
    headD_glue_of_two _ _ (splitOnChar_length_ge_two '-' P hd)]

theorem shortNameOf_chunk (P h T : List Char)
    (hnd : ∀ c ∈ P ++ (h ++ T), c ≠ '-')
    (hdot : ∀ c ∈ h, c ≠ '.')
    (hlen : 3 ≤ (splitOnChar '.' P).length) :
    shortNameOf (P ++ (h ++ T))
      = (splitOnChar '.' P).headD [] ++ (splitOnChar '.' P).getD 1 [] := by
  rw [shortNameOf_no_dash _ hnd, splitDots_generic P h T hdot]
  obtain ⟨s0, s1, s2, sr, hSP⟩ :
      ∃ s0 s1 s2 sr, splitOnChar '.' P = s0 :: s1 :: s2 :: sr := by
    cases h0 : splitOnChar '.' P with
    | nil => rw [h0] at hlen; simp at hlen
    | cons s0 r1 =>
      cases r1 with
      | nil => rw [h0] at hlen; simp at hlen
      | cons s1 r2 =>
        cases r2 with
        | nil => rw [h0] at hlen; simp at hlen
        | cons s2 sr => exact ⟨s0, s1, s2, sr, rfl⟩
  rw [hSP]
  rfl

/-- C2 amended: file names differing only in their content hash normalize
to the same family key whenever some dash precedes the hash (app and
vendor style: the hash sits anywhere after the first dash), or the name
is fully dash-free and at least two dots precede the hash (chunk style:
the hash is the third or later dot-separated segment); a hash in the
first or second dot position of a dash-free name is folded into the
short name and breaks the grouping, as the counterexample shows. -/
theorem claim2_assertShortName_amended :
    (∀ P T h1 h2 : List Char,
        goodHash h1 → goodHash h2 →
        avoidsChar '/' P → avoidsChar '/' T →
        '-' ∈ P →
        assertShortName ⟨"dist/assets/".data ++ (P ++ (h1 ++ T))⟩
          = assertShortName ⟨"dist/assets/".data ++ (P ++ (h2 ++ T))⟩)
    ∧ (∀ P T h1 h2 : List Char,
        goodHash h1 → goodHash h2 →
        avoidsChar '/' P → avoidsChar '/' T →
        avoidsChar '-' P → avoidsChar '-' T →
        3 ≤ (splitOnChar '.' P).length →
        assertShortName ⟨"dist/assets/".data ++ (P ++ (h1 ++ T))⟩
          = assertShortName ⟨"dist/assets/".data ++ (P ++ (h2 ++ T))⟩) := by
  have hsl : ∀ P T h : List Char, goodHash h →
      avoidsChar '/' P → avoidsChar '/' T →
      ∀ c ∈ P ++ (h ++ T), c ≠ '/' := by
    intro P T h hg hsP hsT c hc
    rcases List.mem_append.mp hc with h0 | h0
    · exact hsP c h0
    · rcases List.mem_append.mp h0 with h0 | h0
      · exact (hg.2 c h0).2.2
      · exact hsT c h0
  have hext : ∀ P T h1 h2 : List Char, goodHash h1 → goodHash h2 →
      extOf (splitOnChar '.' (P ++ (h1 ++ T)))
        = extOf (splitOnChar '.' (P ++ (h2 ++ T))) := by
    intro P T h1 h2 hg1 hg2
    rw [splitDots_generic P h1 T (fun c hc => (hg1.2 c hc).1),
      splitDots_generic P h2 T (fun c hc => (hg2.2 c hc).1)]
    apply extOf_middle_long
    · have := hg1.1
      simp only [List.length_append]
      omega
    · have := hg2.1
      simp only [List.length_append]
      omega
  constructor
  · intro P T h1 h2 hg1 hg2 hsP hsT hdash
    rw [assertShortName_append _ (hsl P T h1 hg1 hsP hsT),
      assertShortName_append _ (hsl P T h2 hg2 hsP hsT)]
    have hsn : shortNameOf (P ++ (h1 ++ T)) = shortNameOf (P ++ (h2 ++ T)) := by
      rw [shortNameOf_after_dash P (h1 ++ T) hdash,
        shortNameOf_after_dash P (h2 ++ T) hdash]
    rw [hsn, hext P T h1 h2 hg1 hg2]
  · intro P T h1 h2 hg1 hg2 hsP hsT hdP hdT hlen
    have hnd : ∀ h : List Char, goodHash h → ∀ c ∈ P ++ (h ++ T), c ≠ '-' := by
      intro h hg c hc
      rcases List.mem_append.mp hc with h0 | h0
      · exact hdP c h0
      · rcases List.mem_append.mp h0 with h0 | h0
        · exact (hg.2 c h0).2.1
        · exact hdT c h0
    rw [assertShortName_append _ (hsl P T h1 hg1 hsP hsT),
      assertShortName_append _ (hsl P T h2 hg2 hsP hsT)]
    have hsn : shortNameOf (P ++ (h1 ++ T)) = shortNameOf (P ++ (h2 ++ T)) := by
      rw [shortNameOf_chunk P h1 T (hnd h1 hg1) (fun c hc => (hg1.2 c hc).1) hlen,
        shortNameOf_chunk P h2 T (hnd h2 hg2) (fun c hc => (hg2.2 c hc).1) hlen]
    rw [hsn, hext P T h1 h2 hg1 hg2]

/-- C2 witness: the amended grouping theorem instantiated on a
vendor-style name, a chunk-style name with the hash in the third dot
segment, and a chunk-style name with the hash in the fourth dot segment,
with two different concrete hashes each. -/
theorem claim2_assertShortName_amended_witness :
    assertShortName "dist/assets/vendor-abc123.js"
      = assertShortName "dist/assets/vendor-def456.js"
    ∧ assertShortName "dist/assets/chunk.143.abc123def.js"
      = assertShortName "dist/assets/chunk.143.zzz999yyy.js"
    ∧ assertShortName "dist/assets/chunk.14.36.abc123def.js"
      = assertShortName "dist/assets/chunk.14.36.zzz999yyy.js" := by
  refine ⟨?_, ?_, ?_⟩
  · have e1 : ("dist/assets/vendor-abc123.js" : String)
        = ⟨"dist/assets/".data ++ ("vendor-".data ++ ("abc123".data ++ ".js".data))⟩ := by
      decide
    have e2 : ("dist/assets/vendor-def456.js" : String)
        = ⟨"dist/assets/".data ++ ("vendor-".data ++ ("def456".data ++ ".js".data))⟩ := by
      decide
    rw [e1, e2]
    exact claim2_assertShortName_amended.1 "vendor-".data ".js".data
      "abc123".data "def456".data (by decide) (by decide) (by decide) (by decide)
      (by decide)
  · have e1 : ("dist/assets/chunk.143.abc123def.js" : String)
        = ⟨"dist/assets/".data ++ ("chunk.143.".data ++ ("abc123def".data ++ ".js".data))⟩ := by
      decide
    have e2 : ("dist/assets/chunk.143.zzz999yyy.js" : String)
        = ⟨"dist/assets/".data ++ ("chunk.143.".data ++ ("zzz999yyy".data ++ ".js".data))⟩ := by
      decide
    rw [e1, e2]
    exact claim2_assertShortName_amended.2 "chunk.143.".data ".js".data
      "abc123def".data "zzz999yyy".data (by decide) (by decide) (by decide)
      (by decide) (by decide) (by decide) (by decide)
  · have e1 : ("dist/assets/chunk.14.36.abc123def.js" : String)
        = ⟨"dist/assets/".data ++ ("chunk.14.36.".data ++ ("abc123def".data ++ ".js".data))⟩ := by
      decide
    have e2 : ("dist/assets/chunk.14.36.zzz999yyy.js" : String)
        = ⟨"dist/assets/".data ++ ("chunk.14.36.".data ++ ("zzz999yyy".data ++ ".js".data))⟩ := by
      decide
    rw [e1, e2]
    exact claim2_assertShortName_amended.2 "chunk.14.36.".data ".js".data
      "abc123def".data "zzz999yyy".data (by decide) (by decide) (by decide)
      (by decide) (by decide) (by decide) (by decide)
